import Mathlib

/-!
Shallow embedding of the tree-to-graph serialization engine of `astdot`
(`src/astdot.py`) together with a verification of the testable properties
stated for it.

The Python values that the serializer walks are modelled by the inductive
type `Val`: a composite AST node (`ast.AST`, a type name plus ordered named
fields), a Python list, the value `None`, or any other leaf value carried
together with its `repr` text.  Python dictionaries are modelled as
insertion-ordered association lists with Python's assignment semantics
(`dictSet`: overwrite in place if the key is present, append otherwise).
-/

/-- A Python value as seen by the serializer of `astdot.py`: an `ast.AST`
node (class name plus its `_fields` as ordered name/value pairs), a list,
`None`, or any other leaf value carried with its `repr` text. -/
inductive Val where
  | node (ty : String) (fields : List (String × Val))
  | listV (elems : List Val)
  | noneV
  | leaf (r : String)

/-- Insertion-ordered dictionary assignment `d[k] = v` (Python semantics:
overwrite in place when the key is present, append otherwise). -/
def dictSet {α β : Type} [DecidableEq α] (d : List (α × β)) (k : α) (v : β) :
    List (α × β) :=
  if k ∈ d.map Prod.fst then d.map (fun p => if p.1 = k then (k, v) else p)
  else d ++ [(k, v)]

/-- Dictionary lookup `d[k]`, `none` meaning a Python `KeyError`. -/
def dictGet? {α β : Type} [DecidableEq α] (d : List (α × β)) (k : α) :
    Option β :=
  (d.find? (fun p => decide (p.1 = k))).map Prod.snd

/-- In-place mutation of the value stored at key `k`
(such as Python's `d[k].append(x)`).  Every use below mutates a key that is
provably present, so the missing-key case (a Python `KeyError`) cannot occur
and is modelled as a no-op. -/
def dictModify {α β : Type} [DecidableEq α] (d : List (α × β)) (k : α)
    (f : β → β) : List (α × β) :=
  d.map (fun p => if p.1 = k then (k, f p.2) else p)

/-- The three mappings built by one run of `_to_dot_from_ast`
(`graph`, `node_labels`, `edge_labels` of astdot.py line 124). -/
structure St where
  graph : List (Nat × List Nat)
  nodeLabels : List (Nat × String)
  edgeLabels : List ((Nat × Nat) × String)
deriving DecidableEq

/-- The empty initial state `graph, node_labels, edge_labels = {}, {}, {}`. -/
def emptySt : St := ⟨[], [], []⟩

/-- Python `sep.join(parts)`. -/
def joinSep (sep : String) : List String → String
  | [] => ""
  | [s] => s
  | s :: rest => s ++ sep ++ joinSep sep rest

mutual

/-- `walk_node` (astdot.py lines 106-119): allocate the next node ID,
record the adjacency entry and (below a parent) the parent link and the
incoming edge label, then dispatch on the kind of the visited value.  Note
that the ID, the parent link and the edge are recorded for *every* visited
value; only the `ast.AST` and `list` cases assign a node label. -/
def walkNode (skip : String → Val → Bool) (parent : Option Nat) (v : Val)
    (edgeLabel : String) (st : St) : St :=
  let nid := st.graph.length
  let g := dictSet st.graph nid []
  let st1 : St :=
    match parent with
    | some p =>
        { graph := dictModify g p (fun cs => cs ++ [nid]),
          nodeLabels := st.nodeLabels,
          edgeLabels := dictSet st.edgeLabels (p, nid) edgeLabel }
    | none => { st with graph := g }
  match v with
  | .node ty fields =>
      { (walkFields skip nid fields st1).2 with
        nodeLabels :=
          dictSet (walkFields skip nid fields st1).2.nodeLabels nid
            (joinSep "\\n" (ty :: (walkFields skip nid fields st1).1)) }
  | .listV elems =>
      walkElems skip nid 0 elems
        { st1 with nodeLabels := dictSet st1.nodeLabels nid "list" }
  | _ => st1

/-- `walk_fields` (astdot.py lines 94-104): iterate the fields in order;
a field on which `skip` holds is dropped, a composite or list field is
recursed into as a child with edge label `.name`, and any other field
contributes the text `name: repr(value)` to the parent's label. -/
def walkFields (skip : String → Val → Bool) (nid : Nat)
    (fields : List (String × Val)) (st : St) : List String × St :=
  match fields with
  | [] => ([], st)
  | (name, value) :: rest =>
    if skip name value then walkFields skip nid rest st
    else
      match value with
      | .node ty fs =>
          walkFields skip nid rest
            (walkNode skip (some nid) (.node ty fs) ("." ++ name) st)
      | .listV es =>
          walkFields skip nid rest
            (walkNode skip (some nid) (.listV es) ("." ++ name) st)
      | .noneV =>
          ((name ++ ": None") :: (walkFields skip nid rest st).1,
            (walkFields skip nid rest st).2)
      | .leaf r =>
          ((name ++ ": " ++ r) :: (walkFields skip nid rest st).1,
            (walkFields skip nid rest st).2)

/-- The `for i, x in enumerate(node)` loop of the `list` case of
`walk_node` (astdot.py lines 118-119): visit each element as a child with
edge label `[i]`. -/
def walkElems (skip : String → Val → Bool) (nid : Nat) (i : Nat)
    (elems : List Val) (st : St) : St :=
  match elems with
  | [] => st
  | x :: rest =>
      walkElems skip nid (i + 1) rest
        (walkNode skip (some nid) x ("[" ++ Nat.repr i ++ "]") st)

end

/-- Python `label.replace('"', '\\"')` for the single-character pattern:
escape every double quote of a node label. -/
def escapeQuotes (s : String) : String :=
  String.mk (s.data.flatMap (fun c => if c = '"' then ['\\', '"'] else [c]))

/-- One node-declaration line `{n} [label="{label}"]` of `graph_to_dot`. -/
def nodeLine (n : Nat) (label : String) : String :=
  Nat.repr n ++ " [label=\"" ++ escapeQuotes label ++ "\"]"

/-- One edge line `{src} -> {dst} [label="{edge_labels[src, dst]}"]`. -/
def edgeLine (src dst : Nat) (label : String) : String :=
  Nat.repr src ++ " -> " ++ Nat.repr dst ++ " [label=\"" ++ label ++ "\"]"

/-- The node-declaration lines of `graph_to_dot` (astdot.py lines 77-79):
one line per graph key in insertion order; the label lookup
`node_labels[n]` raises `KeyError` (here: `none`) when absent. -/
def nodeLines (graph : List (Nat × List Nat))
    (nodeLabels : List (Nat × String)) : Option (List String) :=
  graph.mapM (fun (e : Nat × List Nat) =>
    (dictGet? nodeLabels e.1).map (nodeLine e.1))

/-- The edge lines of `graph_to_dot` (astdot.py lines 80-84): for each
graph key in insertion order, one line per recorded child in adjacency
order. -/
def edgeLines (graph : List (Nat × List Nat))
    (edgeLabels : List ((Nat × Nat) × String)) : Option (List String) :=
  (graph.mapM (fun (e : Nat × List Nat) =>
      e.2.mapM (fun dst =>
        (dictGet? edgeLabels (e.1, dst)).map (edgeLine e.1 dst)))).map
    List.flatten

/-- The list `dot` of output lines built by `graph_to_dot`
(astdot.py lines 75-85) before joining. -/
def dotLines (graph : List (Nat × List Nat))
    (nodeLabels : List (Nat × String))
    (edgeLabels : List ((Nat × Nat) × String)) (style : String) :
    Option (List String) := do
  let ns ← nodeLines graph nodeLabels
  let es ← edgeLines graph edgeLabels
  pure (("digraph G \x7b" ++ style) :: (ns ++ es ++ ["\x7d"]))

/-- `graph_to_dot` (astdot.py lines 75-86). -/
def graphToDot (graph : List (Nat × List Nat))
    (nodeLabels : List (Nat × String))
    (edgeLabels : List ((Nat × Nat) × String)) (style : String) :
    Option String :=
  (dotLines graph nodeLabels edgeLabels style).map (joinSep "\n")

/-- Python `value in ([], None)`: equality with the empty list or `None`
(no other modelled value compares equal to either). -/
def emptyOrNone : Val → Bool
  | .listV [] => true
  | .noneV => true
  | _ => false

/-- The default skip predicate `skip` (astdot.py lines 89-90):
`name != 'value' and value in ([], None)`. -/
def skipDefault (name : String) (value : Val) : Bool :=
  decide (name ≠ "value") && emptyOrNone value

/-- `DEFAULT_FONT` (astdot.py line 7). -/
def DEFAULT_FONT : String := "Menlo"

/-- `ALLOWED_FONTS` (astdot.py line 8). -/
def ALLOWED_FONTS : List String := ["Menlo", "Monaco", "Helvetica", "JetBrains Mono"]

/-- Python truthiness of the optional integers `width_in` / `height_in`
of `make_style`: `None` and `0` are falsy, anything else truthy. -/
def intTruthy : Option Int → Bool
  | some n => decide (n ≠ 0)
  | none => false

/-- Rendering of an optional integer inside an f-string. -/
def intText : Option Int → String
  | some n => toString n
  | none => "None"

/-- The `size_attr` computation of `make_style` (astdot.py lines 32-38):
`if width_in and height_in: ... elif width_in: ... elif height_in: ...`,
with the `"!"` force-fit suffix appended inside the quotes. -/
def sizeAttr (width_in height_in : Option Int) (force_fit : Bool) : String :=
  if intTruthy width_in && intTruthy height_in then
    " size=\"" ++ intText width_in ++ "," ++ intText height_in ++
      (if force_fit then "!" else "") ++ "\""
  else if intTruthy width_in then
    " size=\"" ++ intText width_in ++ (if force_fit then "!" else "") ++ "\""
  else if intTruthy height_in then
    " size=\"100," ++ intText height_in ++ (if force_fit then "!" else "") ++ "\""
  else ""

/-- The font selection of `make_style` (astdot.py line 31):
`fontname if fontname in ALLOWED_FONTS else DEFAULT_FONT`. -/
def chooseFont (fontname : Option String) : String :=
  match fontname with
  | some f => if f ∈ ALLOWED_FONTS then f else DEFAULT_FONT
  | none => DEFAULT_FONT

/-- `make_style` (astdot.py lines 11-72).  Numeric parameters that the
Python code merely interpolates into the template (`penwidth`,
`edge_penwidth`, `edge_arrowsize`, `ranksep`, `nodesep`, all floats) are
carried as their rendered decimal text; the two font sizes are integers
and the colors, `rankdir` and `splines` are strings passed through
verbatim, exactly as in the source. -/
def makeStyle (fontname : Option String) (fontsize : Nat) (fontcolor : String)
    (penwidth : String) (border_color : String) (fillcolor : String)
    (edge_fontsize : Nat) (edge_fontcolor : String) (edge_penwidth : String)
    (edge_arrowsize : String) (edge_color : String)
    (width_in height_in : Option Int) (rankdir : String)
    (ranksep nodesep : String) (splines : String) (force_fit : Bool) :
    String :=
  let font := chooseFont fontname
  let size_attr := sizeAttr width_in height_in force_fit
  "\ngraph [\n    bgcolor=\"transparent\"\n    fontname=\"" ++ font ++
    "\"\n    fontcolor=\"" ++ fontcolor ++ "\"\n    fontsize=" ++
    Nat.repr fontsize ++ "\n    fontnames=\"ps\"\n    " ++ size_attr ++
    "\n    rankdir=" ++ rankdir ++ "\n    ranksep=" ++ ranksep ++
    "\n    nodesep=" ++ nodesep ++ "\n    splines=" ++ splines ++
    "\n    ratio=compress\n]\nnode [\n    fontname=\"" ++ font ++
    "\"\n    fontcolor=\"" ++ fontcolor ++ "\"\n    fontsize=" ++
    Nat.repr fontsize ++ "\n    shape=box\n    style=\"rounded, filled\"\n    fillcolor=\"" ++
    fillcolor ++ "\"\n    penwidth=" ++ penwidth ++ "\n    color=\"" ++
    border_color ++ "\"\n]\nedge [\n    fontname=\"" ++ font ++
    "\"\n    fontcolor=\"" ++ edge_fontcolor ++ "\"\n    fontsize=" ++
    Nat.repr edge_fontsize ++ "\n    penwidth=" ++ edge_penwidth ++
    "\n    arrowsize=" ++ edge_arrowsize ++ "\n    color=\"" ++ edge_color ++
    "\"\n]\n"

/-- `make_style()` with every parameter at its default
(astdot.py lines 12-29). -/
def defaultStyle : String :=
  makeStyle none 15 "#000000" "1.0" "#000000" "#E5FDCD" 12 "#555555" "1.0"
    "0.5" "#000000" none none "TB" "0.4" "0.25" "true" true

/-- `_to_dot_from_ast` (astdot.py lines 93-126): default the style when
`style is None`, run the walk from the root with no parent and an empty
edge label, then render.  `none` as the overall result is a Python
exception escaping the call. -/
def toDotFromAst (root : Val) (skip : String → Val → Bool)
    (style : Option String) : Option String :=
  let styleText := match style with | none => defaultStyle | some s => s
  let st := walkNode skip none root "" emptySt
  graphToDot st.graph st.nodeLabels st.edgeLabels styleText

/-- The top-level call `walk_node(None, root, '')` of `_to_dot_from_ast`
(astdot.py line 125) starting from the fresh empty mappings. -/
def runWalk (skip : String → Val → Bool) (root : Val) : St :=
  walkNode skip none root "" emptySt

/-- The tree returned by the external parser for the source `2 + 2` in
default (`exec`) mode:
`Module(body=[Expr(value=BinOp(left=Constant(value=2, kind=None), op=Add(),
right=Constant(value=2, kind=None)))], type_ignores=[])`, with the fields
of every node in `_fields` declaration order. -/
def expr22 : Val :=
  .node "Module"
    [("body", .listV [.node "Expr"
        [("value", .node "BinOp"
            [("left", .node "Constant" [("value", .leaf "2"), ("kind", .noneV)]),
             ("op", .node "Add" []),
             ("right", .node "Constant" [("value", .leaf "2"), ("kind", .noneV)])])]]),
     ("type_ignores", .listV [])]

/-- The tree returned by the external parser for the source `global x`:
`Module(body=[Global(names=['x'])], type_ignores=[])`.  The `names` field
of `Global` is a list whose element is the plain string `'x'`, not an AST
node. -/
def globalX : Val :=
  .node "Module"
    [("body", .listV [.node "Global" [("names", .listV [.leaf "'x'"])]]),
     ("type_ignores", .listV [])]

/-- A node whose `value` field holds Python `None` (the parse of the
expression `None`: `Constant(value=None, kind=None)`). -/
def constantNone : Val := .node "Constant" [("value", .noneV), ("kind", .noneV)]

/-- A root with two composite children the first of which has its own
child, so that edges are recorded in the order
`(0,1), (1,2), (0,3)` during the walk. -/
def branchTree : Val :=
  .node "A" [("x", .node "B" [("y", .node "C" [])]), ("z", .node "D" [])]

/-- C1: the serializer is NOT total.  On the tree of the valid source
`global x` the walk visits the plain string `'x'` as a list element,
allocates a graph entry for it but no node label, and the rendering
lookup `node_labels[n]` then raises `KeyError` (modelled as `none`). -/
theorem serializer_fails_on_global_names :
    toDotFromAst globalX skipDefault (some "") = none := by rfl

/-- C2: a leaf value reached directly as a traversal target DOES get a
graph node.  Walking the one-element sequence `['x']` allocates node
ID 1 for the string leaf, appends it to the root's adjacency list and
records an incoming edge labelled `[0]`, while assigning it no label. -/
theorem leaf_element_gets_graph_node :
    (runWalk skipDefault (Val.listV [Val.leaf "'x'"])).graph =
        [(0, [1]), (1, [])] ∧
      (runWalk skipDefault (Val.listV [Val.leaf "'x'"])).edgeLabels =
        [((0, 1), "[0]")] ∧
      dictGet? (runWalk skipDefault (Val.listV [Val.leaf "'x'"])).nodeLabels 1 =
        none :=
  ⟨rfl, rfl, rfl⟩

/-- C3: serializing the tree of `2 + 2` with the default skip predicate
yields exactly 7 nodes labelled `Module`, `list`, `Expr`, `BinOp`,
`Constant\nvalue: 2`, `Add`, `Constant\nvalue: 2` (IDs 0-6 in that
order), with edges labelled `.body`, `[0]`, `.value`, `.left`, `.op`,
`.right` in that correspondence. -/
theorem serialize_two_plus_two :
    (runWalk skipDefault expr22).graph.length = 7 ∧
      (runWalk skipDefault expr22).edgeLabels =
        [((0, 1), ".body"), ((1, 2), "[0]"), ((2, 3), ".value"),
         ((3, 4), ".left"), ((3, 5), ".op"), ((3, 6), ".right")] ∧
      dictGet? (runWalk skipDefault expr22).nodeLabels 0 = some "Module" ∧
      dictGet? (runWalk skipDefault expr22).nodeLabels 1 = some "list" ∧
      dictGet? (runWalk skipDefault expr22).nodeLabels 2 = some "Expr" ∧
      dictGet? (runWalk skipDefault expr22).nodeLabels 3 = some "BinOp" ∧
      dictGet? (runWalk skipDefault expr22).nodeLabels 4 =
        some "Constant\\nvalue: 2" ∧
      dictGet? (runWalk skipDefault expr22).nodeLabels 5 = some "Add" ∧
      dictGet? (runWalk skipDefault expr22).nodeLabels 6 =
        some "Constant\\nvalue: 2" :=
  ⟨rfl, rfl, rfl, rfl, rfl, rfl, rfl, rfl, rfl⟩

/-- C8: the default skip predicate holds exactly on fields whose name
differs from `value` and whose value is the empty list or `None`; and a
field literally named `value` holding `None` is rendered into the node
label, as in `Constant(value=None, kind=None) ↦ "Constant\nvalue: None"`
(where only `kind` is skipped). -/
theorem default_skip_characterization :
    (∀ (name : String) (value : Val),
        skipDefault name value = true ↔
          (name ≠ "value" ∧ (value = Val.listV [] ∨ value = Val.noneV))) ∧
      dictGet? (runWalk skipDefault constantNone).nodeLabels 0 =
        some "Constant\\nvalue: None" := by
  constructor
  · intro name value
    cases value with
    | node ty fields => simp [skipDefault, emptyOrNone]
    | listV es => cases es <;> simp [skipDefault, emptyOrNone]
    | noneV => simp [skipDefault, emptyOrNone]
    | leaf r => simp [skipDefault, emptyOrNone]
  · rfl

/-- The sizing directive exactly as the specification words it: a
function of which of the two optional sizes is given (present), with the
mandatory-size suffix appended whenever a directive is emitted and force
fit is set. -/
def sizeAttrSpec (width_in height_in : Option Int) (force_fit : Bool) :
    String :=
  let bang := if force_fit then "!" else ""
  match width_in, height_in with
  | some w, some h =>
      " size=\"" ++ toString w ++ "," ++ toString h ++ bang ++ "\""
  | some w, none => " size=\"" ++ toString w ++ bang ++ "\""
  | none, some h => " size=\"100," ++ toString h ++ bang ++ "\""
  | none, none => ""

/-- C9 counterexample: a width of `0` is given, so the claim demands the
directive ` size="0!"`, but `make_style` tests Python truthiness
(`if width_in`) and emits no sizing directive at all. -/
theorem size_attr_zero_width_mismatch :
    sizeAttr (some 0) none true ≠ sizeAttrSpec (some 0) none true := by
  decide

/-- An option demoted to `none` when it is Python-falsy (absent or `0`). -/
def truthyOpt (o : Option Int) : Option Int :=
  if intTruthy o then o else none

/-- C9 amended: the sizing directive follows the claimed case analysis
once "given" is read as "given and nonzero" (Python truthiness): the
code's `size_attr` equals the spec's function applied to the
truthiness-filtered options, for all inputs. -/
theorem size_attr_truthiness :
    ∀ (w h : Option Int) (ff : Bool),
      sizeAttr w h ff = sizeAttrSpec (truthyOpt w) (truthyOpt h) ff := by
  intro w h ff
  rcases w with _ | w <;> rcases h with _ | h
  · simp [sizeAttr, sizeAttrSpec, truthyOpt, intTruthy]
  · by_cases hh : h = 0 <;>
      simp [sizeAttr, sizeAttrSpec, truthyOpt, intTruthy, intText, hh]
  · by_cases hw : w = 0 <;>
      simp [sizeAttr, sizeAttrSpec, truthyOpt, intTruthy, intText, hw]
  · by_cases hw : w = 0 <;> by_cases hh : h = 0 <;>
      simp [sizeAttr, sizeAttrSpec, truthyOpt, intTruthy, intText, hw, hh]

/-- C4 counterexample: on `branchTree` the walk records the edges in the
order `(0,1), (1,2), (0,3)`, but `graph_to_dot` emits the edge lines
grouped by source node — `0 -> 1`, `0 -> 3`, `1 -> 2` — so the edge
group does NOT follow first-recording (visitation) order. -/
theorem edge_lines_not_in_recording_order :
    edgeLines (runWalk skipDefault branchTree).graph
        (runWalk skipDefault branchTree).edgeLabels ≠
      some ((runWalk skipDefault branchTree).edgeLabels.map
        (fun (e : (Nat × Nat) × String) => edgeLine e.1.1 e.1.2 e.2)) := by
  decide

/-- C4 amended: the output line list is the header, then one node line
per graph entry in insertion (visitation) order, then the edge lines
grouped by source node in source visitation order — each source's
children in adjacency (child visitation) order — then the closing
brace. -/
theorem dot_lines_ordering (g : List (Nat × List Nat))
    (nl : List (Nat × String)) (el : List ((Nat × Nat) × String))
    (style : String) (lines : List String)
    (h : dotLines g nl el style = some lines) :
    ∃ ns ess,
      nodeLines g nl = some ns ∧
        g.mapM (fun (e : Nat × List Nat) =>
            e.2.mapM (fun dst =>
              (dictGet? el (e.1, dst)).map (edgeLine e.1 dst))) = some ess ∧
        lines =
          ("digraph G \x7b" ++ style) :: (ns ++ ess.flatten ++ ["\x7d"]) := by
  cases hns : nodeLines g nl with
  | none => rw [dotLines, hns] at h; exact absurd h (by simp)
  | some ns =>
    cases hes : edgeLines g el with
    | none => rw [dotLines, hns, hes] at h; exact absurd h (by simp)
    | some es =>
      rw [dotLines, hns, hes] at h
      have h' : ("digraph G \x7b" ++ style) :: (ns ++ es ++ ["\x7d"]) = lines := by
        simpa using h
      rw [edgeLines] at hes
      rcases Option.map_eq_some'.mp hes with ⟨ess, hess, hflat⟩
      exact ⟨ns, ess, rfl, hess, by rw [← h', hflat]⟩

/-- Closed instance of the amended C4 ordering statement at the concrete
tree `branchTree` with an empty style block. -/
theorem dot_lines_ordering_witness :
    ∃ ns ess,
      nodeLines (runWalk skipDefault branchTree).graph
          (runWalk skipDefault branchTree).nodeLabels = some ns ∧
        (runWalk skipDefault branchTree).graph.mapM
            (fun (e : Nat × List Nat) =>
              e.2.mapM (fun dst =>
                (dictGet? (runWalk skipDefault branchTree).edgeLabels
                    (e.1, dst)).map (edgeLine e.1 dst))) = some ess ∧
        ["digraph G \x7b", "0 [label=\"A\"]", "1 [label=\"B\"]",
            "2 [label=\"C\"]", "3 [label=\"D\"]", "0 -> 1 [label=\".x\"]",
            "0 -> 3 [label=\".z\"]", "1 -> 2 [label=\".y\"]", "\x7d"] =
          ("digraph G \x7b" ++ "") :: (ns ++ ess.flatten ++ ["\x7d"]) :=
  dot_lines_ordering (runWalk skipDefault branchTree).graph
    (runWalk skipDefault branchTree).nodeLabels
    (runWalk skipDefault branchTree).edgeLabels ""
    ["digraph G \x7b", "0 [label=\"A\"]", "1 [label=\"B\"]", "2 [label=\"C\"]",
      "3 [label=\"D\"]", "0 -> 1 [label=\".x\"]", "0 -> 3 [label=\".z\"]",
      "1 -> 2 [label=\".y\"]", "\x7d"] (by rfl)

mutual

/-- Removal of every field on which `skip` holds, recursively, leaving
everything else (including list elements, which are never skipped)
untouched.  Walking the pruned tree with a never-skipping predicate is
proved below to coincide with walking the original tree with `skip`. -/
def pruneVal (skip : String → Val → Bool) : Val → Val
  | .node ty fields => .node ty (pruneFields skip fields)
  | .listV elems => .listV (pruneElems skip elems)
  | .noneV => .noneV
  | .leaf r => .leaf r

/-- Field-list part of `pruneVal`. -/
def pruneFields (skip : String → Val → Bool) :
    List (String × Val) → List (String × Val)
  | [] => []
  | (name, value) :: rest =>
    if skip name value then pruneFields skip rest
    else (name, pruneVal skip value) :: pruneFields skip rest

/-- Element-list part of `pruneVal`. -/
def pruneElems (skip : String → Val → Bool) : List Val → List Val
  | [] => []
  | x :: rest => pruneVal skip x :: pruneElems skip rest

end

/-- The state updates of `walk_node` that precede the dispatch on the kind
of the visited value (astdot.py lines 107-111): allocate
`node_id = len(graph)`, insert the empty adjacency entry, and below a
parent append the child link and record the incoming edge label. -/
def allocSt (parent : Option Nat) (lbl : String) (st : St) : St :=
  let nid := st.graph.length
  let g := dictSet st.graph nid []
  match parent with
  | some p =>
      { graph := dictModify g p (fun cs => cs ++ [nid]),
        nodeLabels := st.nodeLabels,
        edgeLabels := dictSet st.edgeLabels (p, nid) lbl }
  | none => { st with graph := g }

/-- Unfolding of `walkNode` on an AST node in terms of `allocSt`. -/
theorem walkNode_node_eq (skip : String → Val → Bool) (parent : Option Nat)
    (ty : String) (fields : List (String × Val)) (lbl : String) (st : St) :
    walkNode skip parent (.node ty fields) lbl st =
      { (walkFields skip st.graph.length fields (allocSt parent lbl st)).2 with
        nodeLabels :=
          dictSet
            (walkFields skip st.graph.length fields
                (allocSt parent lbl st)).2.nodeLabels
            st.graph.length
            (joinSep "\\n"
              (ty :: (walkFields skip st.graph.length fields
                  (allocSt parent lbl st)).1)) } := by
  cases parent <;> rfl

/-- Unfolding of `walkNode` on a list in terms of `allocSt`. -/
theorem walkNode_listV_eq (skip : String → Val → Bool) (parent : Option Nat)
    (elems : List Val) (lbl : String) (st : St) :
    walkNode skip parent (.listV elems) lbl st =
      walkElems skip st.graph.length 0 elems
        { allocSt parent lbl st with
          nodeLabels :=
            dictSet (allocSt parent lbl st).nodeLabels st.graph.length
              "list" } := by
  cases parent <;> rfl

/-- Unfolding of `walkNode` on `None`: only the shared state updates run. -/
theorem walkNode_noneV_eq (skip : String → Val → Bool) (parent : Option Nat)
    (lbl : String) (st : St) :
    walkNode skip parent .noneV lbl st = allocSt parent lbl st := by
  cases parent <;> rfl

/-- Unfolding of `walkNode` on any other leaf: only the shared state
updates run. -/
theorem walkNode_leaf_eq (skip : String → Val → Bool) (parent : Option Nat)
    (r : String) (lbl : String) (st : St) :
    walkNode skip parent (.leaf r) lbl st = allocSt parent lbl st := by
  cases parent <;> rfl

/-- A skipped field is dropped by `walkFields`. -/
theorem walkFields_cons_skip {skip : String → Val → Bool} {name : String}
    {value : Val} (h : skip name value = true) (nid : Nat)
    (rest : List (String × Val)) (st : St) :
    walkFields skip nid ((name, value) :: rest) st =
      walkFields skip nid rest st := by
  rw [walkFields.eq_def]; simp [h]

/-- A kept AST-node field is recursed into with edge label `.name`. -/
theorem walkFields_cons_node {skip : String → Val → Bool} {name : String}
    {ty : String} {fs : List (String × Val)}
    (h : skip name (.node ty fs) = false) (nid : Nat)
    (rest : List (String × Val)) (st : St) :
    walkFields skip nid ((name, .node ty fs) :: rest) st =
      walkFields skip nid rest
        (walkNode skip (some nid) (.node ty fs) ("." ++ name) st) := by
  rw [walkFields.eq_def]; simp [h]

/-- A kept list field is recursed into with edge label `.name`. -/
theorem walkFields_cons_listV {skip : String → Val → Bool} {name : String}
    {es : List Val} (h : skip name (.listV es) = false) (nid : Nat)
    (rest : List (String × Val)) (st : St) :
    walkFields skip nid ((name, .listV es) :: rest) st =
      walkFields skip nid rest
        (walkNode skip (some nid) (.listV es) ("." ++ name) st) := by
  rw [walkFields.eq_def]; simp [h]

/-- A kept `None` field contributes the label fragment `name: None`. -/
theorem walkFields_cons_noneV {skip : String → Val → Bool} {name : String}
    (h : skip name .noneV = false) (nid : Nat) (rest : List (String × Val))
    (st : St) :
    walkFields skip nid ((name, .noneV) :: rest) st =
      ((name ++ ": None") :: (walkFields skip nid rest st).1,
        (walkFields skip nid rest st).2) := by
  rw [walkFields.eq_def]; simp [h]

/-- A kept leaf field contributes the label fragment `name: repr(value)`. -/
theorem walkFields_cons_leaf {skip : String → Val → Bool} {name : String}
    {r : String} (h : skip name (.leaf r) = false) (nid : Nat)
    (rest : List (String × Val)) (st : St) :
    walkFields skip nid ((name, .leaf r) :: rest) st =
      ((name ++ ": " ++ r) :: (walkFields skip nid rest st).1,
        (walkFields skip nid rest st).2) := by
  rw [walkFields.eq_def]; simp [h]

/-- A list element is visited with edge label `[i]`. -/
theorem walkElems_cons_eq (skip : String → Val → Bool) (nid : Nat) (i : Nat)
    (x : Val) (rest : List Val) (st : St) :
    walkElems skip nid i (x :: rest) st =
      walkElems skip nid (i + 1) rest
        (walkNode skip (some nid) x ("[" ++ Nat.repr i ++ "]") st) := rfl

/-- An empty field list leaves the state unchanged. -/
theorem walkFields_nil_snd (skip : String → Val → Bool) (nid : Nat)
    (st : St) : (walkFields skip nid ([] : List (String × Val)) st).2 = st :=
  rfl

/-- An empty element list leaves the state unchanged. -/
theorem walkElems_nil_eq (skip : String → Val → Bool) (nid : Nat) (i : Nat)
    (st : St) : walkElems skip nid i ([] : List Val) st = st := rfl

/-- `pruneFields` drops a skipped head field. -/
theorem pruneFields_cons_skip {skip : String → Val → Bool} {name : String}
    {value : Val} (h : skip name value = true) (rest : List (String × Val)) :
    pruneFields skip ((name, value) :: rest) = pruneFields skip rest := by
  rw [pruneFields.eq_def]; simp [h]

/-- `pruneFields` keeps (and recursively prunes) a non-skipped head
field. -/
theorem pruneFields_cons_keep {skip : String → Val → Bool} {name : String}
    {value : Val} (h : skip name value = false) (rest : List (String × Val)) :
    pruneFields skip ((name, value) :: rest) =
      (name, pruneVal skip value) :: pruneFields skip rest := by
  rw [pruneFields.eq_def]; simp [h]

mutual

/-- Walking a value with `skip` equals walking its pruned form with a
predicate that never skips: a skipped field leaves no trace in any of the
three output mappings. -/
theorem walkNode_prune (skip : String → Val → Bool) (parent : Option Nat)
    (v : Val) (lbl : String) (st : St) :
    walkNode skip parent v lbl st =
      walkNode (fun _ _ => false) parent (pruneVal skip v) lbl st := by
  cases v with
  | node ty fields =>
      simp only [pruneVal]
      rw [walkNode_node_eq, walkNode_node_eq,
        walkFields_prune skip st.graph.length fields (allocSt parent lbl st)]
  | listV elems =>
      simp only [pruneVal]
      rw [walkNode_listV_eq, walkNode_listV_eq,
        walkElems_prune skip st.graph.length 0 elems
          { allocSt parent lbl st with
            nodeLabels :=
              dictSet (allocSt parent lbl st).nodeLabels st.graph.length
                "list" }]
  | noneV => rfl
  | leaf r => rfl
termination_by sizeOf v

/-- Field-list case of `walkNode_prune`. -/
theorem walkFields_prune (skip : String → Val → Bool) (nid : Nat)
    (fields : List (String × Val)) (st : St) :
    walkFields skip nid fields st =
      walkFields (fun _ _ => false) nid (pruneFields skip fields) st := by
  cases fields with
  | nil => rfl
  | cons fv rest =>
    obtain ⟨name, value⟩ := fv
    cases hskip : skip name value with
    | true =>
        rw [walkFields_cons_skip hskip, pruneFields_cons_skip hskip]
        exact walkFields_prune skip nid rest st
    | false =>
        rw [pruneFields_cons_keep hskip]
        cases value with
        | node ty2 fs2 =>
            simp only [pruneVal]
            rw [walkFields_cons_node hskip,
              walkFields_cons_node
                (show (fun (_ : String) (_ : Val) => false) name
                    (.node ty2 (pruneFields skip fs2)) = false from rfl),
              walkNode_prune skip (some nid) (Val.node ty2 fs2)
                ("." ++ name) st]
            simp only [pruneVal]
            exact walkFields_prune skip nid rest _
        | listV es2 =>
            simp only [pruneVal]
            rw [walkFields_cons_listV hskip,
              walkFields_cons_listV
                (show (fun (_ : String) (_ : Val) => false) name
                    (.listV (pruneElems skip es2)) = false from rfl),
              walkNode_prune skip (some nid) (Val.listV es2)
                ("." ++ name) st]
            simp only [pruneVal]
            exact walkFields_prune skip nid rest _
        | noneV =>
            simp only [pruneVal]
            rw [walkFields_cons_noneV hskip,
              walkFields_cons_noneV
                (show (fun (_ : String) (_ : Val) => false) name Val.noneV =
                    false from rfl),
              walkFields_prune skip nid rest st]
        | leaf r =>
            simp only [pruneVal]
            rw [walkFields_cons_leaf hskip,
              walkFields_cons_leaf
                (show (fun (_ : String) (_ : Val) => false) name (Val.leaf r) =
                    false from rfl),
              walkFields_prune skip nid rest st]
termination_by sizeOf fields

/-- Element-list case of `walkNode_prune`. -/
theorem walkElems_prune (skip : String → Val → Bool) (nid : Nat) (i : Nat)
    (elems : List Val) (st : St) :
    walkElems skip nid i elems st =
      walkElems (fun _ _ => false) nid i (pruneElems skip elems) st := by
  cases elems with
  | nil => rfl
  | cons x rest =>
      simp only [pruneElems]
      rw [walkElems_cons_eq, walkElems_cons_eq,
        walkNode_prune skip (some nid) x ("[" ++ Nat.repr i ++ "]") st]
      exact walkElems_prune skip nid (i + 1) rest _
termination_by sizeOf elems

end

/-- C7: for every skip predicate, style and input tree, the serializer's
output on the tree equals its output on the tree with all skipped fields
removed (walked with a never-skipping predicate): a skipped field
produces no edge, no child node and no label fragment anywhere. -/
theorem skipped_fields_contribute_nothing :
    ∀ (skip : String → Val → Bool) (style : Option String) (v : Val),
      toDotFromAst v skip style =
        toDotFromAst (pruneVal skip v) (fun _ _ => false) style := by
  intro skip style v
  unfold toDotFromAst
  rw [walkNode_prune]

/-- Well-formedness of the graph dictionary: its keys are exactly
`0, 1, ..., len - 1` in insertion order, as produced by allocating each
node ID as `len(graph)`. -/
def WFg (g : List (Nat × List Nat)) : Prop :=
  g.map Prod.fst = List.range g.length

/-- Total number of occurrences of `x` as a child across all adjacency
lists of the graph. -/
def childCount (g : List (Nat × List Nat)) (x : Nat) : Nat :=
  (g.map (fun (e : Nat × List Nat) => e.2.count x)).sum

/-- `dictModify` does not change the key sequence. -/
theorem map_fst_dictModify {β : Type} (d : List (Nat × β)) (k : Nat)
    (f : β → β) : (dictModify d k f).map Prod.fst = d.map Prod.fst := by
  unfold dictModify
  rw [List.map_map]
  apply List.map_congr_left
  intro p _
  by_cases h : p.1 = k <;> simp [h]

/-- `dictModify` does not change the number of entries. -/
theorem length_dictModify {β : Type} (d : List (Nat × β)) (k : Nat)
    (f : β → β) : (dictModify d k f).length = d.length := by
  simp [dictModify]

/-- `dictModify` at an absent key is the identity. -/
theorem dictModify_not_mem {β : Type} {d : List (Nat × β)} {k : Nat}
    (h : k ∉ d.map Prod.fst) (f : β → β) : dictModify d k f = d := by
  induction d with
  | nil => rfl
  | cons p t ih =>
      simp only [List.map_cons, List.mem_cons, not_or] at h
      simp [dictModify, Ne.symm h.1]
      simpa [dictModify] using ih h.2

/-- Assignment at a fresh key appends the entry. -/
theorem dictSet_fresh {α β : Type} [DecidableEq α] {d : List (α × β)}
    {k : α} (h : k ∉ d.map Prod.fst) (v : β) :
    dictSet d k v = d ++ [(k, v)] := by
  simp [dictSet, h]

/-- In a well-formed graph the next ID `len(graph)` is a fresh key. -/
theorem WFg_length_fresh {g : List (Nat × List Nat)} (h : WFg g) :
    g.length ∉ g.map Prod.fst := by
  rw [h]
  simp

/-- Appending the next entry preserves well-formedness. -/
theorem WFg_append {g : List (Nat × List Nat)} (h : WFg g)
    (cs : List Nat) : WFg (g ++ [(g.length, cs)]) := by
  unfold WFg at *
  simp [h, List.range_succ]

/-- `dictModify` preserves well-formedness. -/
theorem WFg_dictModify {g : List (Nat × List Nat)} (h : WFg g) (k : Nat)
    (f : List Nat → List Nat) : WFg (dictModify g k f) := by
  unfold WFg
  rw [map_fst_dictModify, length_dictModify]
  exact h

/-- `childCount` over an appended entry. -/
theorem childCount_append (g : List (Nat × List Nat)) (k : Nat)
    (cs : List Nat) (x : Nat) :
    childCount (g ++ [(k, cs)]) x = childCount g x + cs.count x := by
  simp [childCount]

/-- Appending a child `y` to the adjacency list of a key `p` that occurs
exactly once raises the count of `y` by one and leaves other counts
unchanged. -/
theorem childCount_dictModify_append {g : List (Nat × List Nat)} {p : Nat}
    (h : (g.map Prod.fst).count p = 1) (y x : Nat) :
    childCount (dictModify g p (fun cs => cs ++ [y])) x =
      childCount g x + (if y = x then 1 else 0) := by
  induction g with
  | nil => simp at h
  | cons e t ih =>
      have hcons : dictModify (e :: t) p (fun cs => cs ++ [y]) =
          (if e.1 = p then (p, e.2 ++ [y]) else e) ::
            dictModify t p (fun cs => cs ++ [y]) := rfl
      rw [List.map_cons] at h
      by_cases he : e.1 = p
      · rw [he, List.count_cons_self] at h
        have ht : p ∉ t.map Prod.fst :=
          List.count_eq_zero.mp (by omega)
        rw [hcons, if_pos he, dictModify_not_mem ht]
        simp only [childCount, List.map_cons, List.sum_cons,
          List.count_append, List.count_cons, List.count_nil, beq_iff_eq]
        split_ifs <;> omega
      · rw [List.count_cons_of_ne (fun hq => he hq.symm)] at h
        rw [hcons, if_neg he]
        have hx := ih h
        simp only [childCount, List.map_cons, List.sum_cons] at hx ⊢
        split_ifs at hx ⊢ <;> omega

/-- A key below the length of a well-formed graph occurs exactly once. -/
theorem WFg_count_one {g : List (Nat × List Nat)} (h : WFg g) {p : Nat}
    (hp : p < g.length) : (g.map Prod.fst).count p = 1 := by
  rw [h]
  exact List.count_eq_one_of_mem (List.nodup_range _) (List.mem_range.mpr hp)

/-- Graph of the prelude below no parent (root visit). -/
theorem allocSt_none_graph (lbl : String) (st : St) :
    (allocSt none lbl st).graph = dictSet st.graph st.graph.length [] := rfl

/-- Graph of the prelude below parent `p`. -/
theorem allocSt_some_graph (p : Nat) (lbl : String) (st : St) :
    (allocSt (some p) lbl st).graph =
      dictModify (dictSet st.graph st.graph.length []) p
        (fun cs => cs ++ [st.graph.length]) := rfl

/-- The prelude preserves graph well-formedness. -/
theorem allocSt_WF (parent : Option Nat) (lbl : String) (st : St)
    (hWF : WFg st.graph) : WFg (allocSt parent lbl st).graph := by
  cases parent with
  | none =>
      rw [allocSt_none_graph, dictSet_fresh (WFg_length_fresh hWF)]
      exact WFg_append hWF []
  | some p =>
      rw [allocSt_some_graph, dictSet_fresh (WFg_length_fresh hWF)]
      exact WFg_dictModify (WFg_append hWF []) p _

/-- The prelude allocates exactly one new graph entry. -/
theorem allocSt_length (parent : Option Nat) (lbl : String) (st : St)
    (hWF : WFg st.graph) :
    (allocSt parent lbl st).graph.length = st.graph.length + 1 := by
  cases parent with
  | none =>
      rw [allocSt_none_graph, dictSet_fresh (WFg_length_fresh hWF)]
      simp
  | some p =>
      rw [allocSt_some_graph, dictSet_fresh (WFg_length_fresh hWF),
        length_dictModify]
      simp

/-- Below no parent the prelude records no child link. -/
theorem allocSt_none_count (lbl : String) (st : St) (hWF : WFg st.graph)
    (x : Nat) :
    childCount (allocSt none lbl st).graph x = childCount st.graph x := by
  rw [allocSt_none_graph, dictSet_fresh (WFg_length_fresh hWF),
    childCount_append]
  simp

/-- Below parent `p` the prelude records exactly one child link, to the
freshly allocated ID. -/
theorem allocSt_some_count (p : Nat) (lbl : String) (st : St)
    (hWF : WFg st.graph) (hp : p < st.graph.length) (x : Nat) :
    childCount (allocSt (some p) lbl st).graph x =
      childCount st.graph x +
        (if x = st.graph.length then 1 else 0) := by
  rw [allocSt_some_graph, dictSet_fresh (WFg_length_fresh hWF)]
  have hone : ((st.graph ++ [(st.graph.length, [])]).map Prod.fst).count p =
      1 := by
    apply WFg_count_one (WFg_append hWF [])
    rw [List.length_append]
    simp
    omega
  rw [childCount_dictModify_append hone, childCount_append]
  simp only [List.count_nil, Nat.add_zero]
  split_ifs <;> omega

/-- The smallest ID that acquires a parent link during a `walkNode` call:
every freshly allocated ID when there is a parent, every fresh ID except
the root's own when there is none. -/
def newLow : Option Nat → Nat → Nat
  | some _, n => n
  | none, n => n + 1

/-- Graph of `walkNode` on an AST node, in projection form. -/
theorem walkNode_node_graph (skip : String → Val → Bool)
    (parent : Option Nat) (ty : String) (fields : List (String × Val))
    (lbl : String) (st : St) :
    (walkNode skip parent (.node ty fields) lbl st).graph =
      (walkFields skip st.graph.length fields (allocSt parent lbl st)).2.graph := by
  cases parent <;> rfl

/-- The state seen by the element loop of a list node: the prelude state
with the label `list` assigned to the fresh ID. -/
def listSt (parent : Option Nat) (lbl : String) (st : St) : St :=
  { graph := (allocSt parent lbl st).graph,
    nodeLabels :=
      dictSet (allocSt parent lbl st).nodeLabels st.graph.length "list",
    edgeLabels := (allocSt parent lbl st).edgeLabels }

/-- Graph of the list-element state. -/
theorem listSt_graph (parent : Option Nat) (lbl : String) (st : St) :
    (listSt parent lbl st).graph = (allocSt parent lbl st).graph := rfl

/-- Graph of `walkNode` on a list, in projection form. -/
theorem walkNode_listV_graph (skip : String → Val → Bool)
    (parent : Option Nat) (elems : List Val) (lbl : String) (st : St) :
    (walkNode skip parent (.listV elems) lbl st).graph =
      (walkElems skip st.graph.length 0 elems (listSt parent lbl st)).graph := by
  cases parent <;> rfl

mutual

/-- Graph bookkeeping of one `walkNode` call: well-formedness is
preserved, at least one ID is allocated, and each freshly allocated ID
acquires exactly one parent link — except the visited node itself when it
is the root. -/
theorem walkNode_count (skip : String → Val → Bool) (parent : Option Nat)
    (v : Val) (lbl : String) (st : St) (hWF : WFg st.graph)
    (hp : ∀ q, parent = some q → q < st.graph.length) :
    WFg (walkNode skip parent v lbl st).graph ∧
      st.graph.length < (walkNode skip parent v lbl st).graph.length ∧
      ∀ x, childCount (walkNode skip parent v lbl st).graph x =
        childCount st.graph x +
          (if newLow parent st.graph.length ≤ x ∧
              x < (walkNode skip parent v lbl st).graph.length
            then 1 else 0) := by
  cases v with
  | node ty fields =>
      rw [walkNode_node_graph]
      obtain ⟨hWF2, hlen2, hcc2⟩ :=
        walkFields_count skip st.graph.length fields (allocSt parent lbl st)
          (allocSt_WF parent lbl st hWF)
          (by rw [allocSt_length parent lbl st hWF]; omega)
      rw [allocSt_length parent lbl st hWF] at hlen2
      refine ⟨hWF2, by omega, fun x => ?_⟩
      have h2 := hcc2 x
      rw [allocSt_length parent lbl st hWF] at h2
      cases parent with
      | none =>
          rw [allocSt_none_count lbl st hWF] at h2
          simp only [newLow]
          exact h2
      | some q =>
          rw [allocSt_some_count q lbl st hWF (hp q rfl)] at h2
          simp only [newLow]
          split_ifs at h2 ⊢ <;> omega
  | listV elems =>
      rw [walkNode_listV_graph]
      obtain ⟨hWF2, hlen2, hcc2⟩ :=
        walkElems_count skip st.graph.length 0 elems (listSt parent lbl st)
          (by rw [listSt_graph]; exact allocSt_WF parent lbl st hWF)
          (by rw [listSt_graph, allocSt_length parent lbl st hWF]; omega)
      rw [listSt_graph, allocSt_length parent lbl st hWF] at hlen2
      refine ⟨hWF2, by omega, fun x => ?_⟩
      have h2 := hcc2 x
      rw [listSt_graph, allocSt_length parent lbl st hWF] at h2
      cases parent with
      | none =>
          rw [allocSt_none_count lbl st hWF] at h2
          simp only [newLow]
          exact h2
      | some q =>
          rw [allocSt_some_count q lbl st hWF (hp q rfl)] at h2
          simp only [newLow]
          split_ifs at h2 ⊢ <;> omega
  | noneV =>
      rw [walkNode_noneV_eq]
      refine ⟨allocSt_WF parent lbl st hWF,
        by rw [allocSt_length parent lbl st hWF]; omega, fun x => ?_⟩
      rw [allocSt_length parent lbl st hWF]
      cases parent with
      | none =>
          rw [allocSt_none_count lbl st hWF]
          simp only [newLow]
          rw [if_neg (by omega)]
          omega
      | some q =>
          rw [allocSt_some_count q lbl st hWF (hp q rfl)]
          simp only [newLow]
          split_ifs <;> omega
  | leaf r =>
      rw [walkNode_leaf_eq]
      refine ⟨allocSt_WF parent lbl st hWF,
        by rw [allocSt_length parent lbl st hWF]; omega, fun x => ?_⟩
      rw [allocSt_length parent lbl st hWF]
      cases parent with
      | none =>
          rw [allocSt_none_count lbl st hWF]
          simp only [newLow]
          rw [if_neg (by omega)]
          omega
      | some q =>
          rw [allocSt_some_count q lbl st hWF (hp q rfl)]
          simp only [newLow]
          split_ifs <;> omega
termination_by sizeOf v

/-- Field-list part of `walkNode_count`: every ID allocated while walking
a field list acquires exactly one parent link. -/
theorem walkFields_count (skip : String → Val → Bool) (nid : Nat)
    (fields : List (String × Val)) (st : St) (hWF : WFg st.graph)
    (hn : nid < st.graph.length) :
    WFg (walkFields skip nid fields st).2.graph ∧
      st.graph.length ≤ (walkFields skip nid fields st).2.graph.length ∧
      ∀ x, childCount (walkFields skip nid fields st).2.graph x =
        childCount st.graph x +
          (if st.graph.length ≤ x ∧
              x < (walkFields skip nid fields st).2.graph.length
            then 1 else 0) := by
  cases fields with
  | nil =>
      rw [walkFields_nil_snd]
      exact ⟨hWF, Nat.le_refl _, fun x => by rw [if_neg (by omega)]; omega⟩
  | cons fv rest =>
    obtain ⟨name, value⟩ := fv
    cases hskip : skip name value with
    | true =>
        rw [walkFields_cons_skip hskip]
        exact walkFields_count skip nid rest st hWF hn
    | false =>
        cases value with
        | node ty2 fs2 =>
            rw [walkFields_cons_node hskip]
            obtain ⟨hWF1, hlen1, hcc1⟩ :=
              walkNode_count skip (some nid) (.node ty2 fs2) ("." ++ name) st
                hWF (fun q hq => by cases hq; exact hn)
            obtain ⟨hWF2, hlen2, hcc2⟩ :=
              walkFields_count skip nid rest
                (walkNode skip (some nid) (.node ty2 fs2) ("." ++ name) st)
                hWF1 (by omega)
            refine ⟨hWF2, by omega, fun x => ?_⟩
            have h1 := hcc1 x
            have h2 := hcc2 x
            simp only [newLow] at h1
            rw [h2, h1]
            split_ifs <;> omega
        | listV es2 =>
            rw [walkFields_cons_listV hskip]
            obtain ⟨hWF1, hlen1, hcc1⟩ :=
              walkNode_count skip (some nid) (.listV es2) ("." ++ name) st
                hWF (fun q hq => by cases hq; exact hn)
            obtain ⟨hWF2, hlen2, hcc2⟩ :=
              walkFields_count skip nid rest
                (walkNode skip (some nid) (.listV es2) ("." ++ name) st)
                hWF1 (by omega)
            refine ⟨hWF2, by omega, fun x => ?_⟩
            have h1 := hcc1 x
            have h2 := hcc2 x
            simp only [newLow] at h1
            rw [h2, h1]
            split_ifs <;> omega
        | noneV =>
            rw [walkFields_cons_noneV hskip]
            exact walkFields_count skip nid rest st hWF hn
        | leaf r =>
            rw [walkFields_cons_leaf hskip]
            exact walkFields_count skip nid rest st hWF hn
termination_by sizeOf fields

/-- Element-list part of `walkNode_count`. -/
theorem walkElems_count (skip : String → Val → Bool) (nid : Nat) (i : Nat)
    (elems : List Val) (st : St) (hWF : WFg st.graph)
    (hn : nid < st.graph.length) :
    WFg (walkElems skip nid i elems st).graph ∧
      st.graph.length ≤ (walkElems skip nid i elems st).graph.length ∧
      ∀ x, childCount (walkElems skip nid i elems st).graph x =
        childCount st.graph x +
          (if st.graph.length ≤ x ∧
              x < (walkElems skip nid i elems st).graph.length
            then 1 else 0) := by
  cases elems with
  | nil =>
      rw [walkElems_nil_eq]
      exact ⟨hWF, Nat.le_refl _, fun x => by rw [if_neg (by omega)]; omega⟩
  | cons x rest =>
      rw [walkElems_cons_eq]
      obtain ⟨hWF1, hlen1, hcc1⟩ :=
        walkNode_count skip (some nid) x ("[" ++ Nat.repr i ++ "]") st hWF
          (fun q hq => by cases hq; exact hn)
      obtain ⟨hWF2, hlen2, hcc2⟩ :=
        walkElems_count skip nid (i + 1) rest
          (walkNode skip (some nid) x ("[" ++ Nat.repr i ++ "]") st) hWF1
          (by omega)
      refine ⟨hWF2, by omega, fun y => ?_⟩
      have h1 := hcc1 y
      have h2 := hcc2 y
      simp only [newLow] at h1
      rw [h2, h1]
      split_ifs <;> omega
termination_by sizeOf elems

end

/-- C5: in the graph built by one serialization run, for any input tree
and skip predicate, every ID in the graph other than 0 occurs as a child
exactly once across all adjacency lists, and ID 0 (and any ID not in the
graph) occurs in none of them. -/
theorem nonroot_single_parent (v : Val) (skip : String → Val → Bool)
    (x : Nat) :
    childCount (runWalk skip v).graph x =
      if 1 ≤ x ∧ x < (runWalk skip v).graph.length then 1 else 0 := by
  obtain ⟨hWF, hlen, hcc⟩ :=
    walkNode_count skip none v "" emptySt rfl (fun q hq => by cases hq)
  have h := hcc x
  simp only [newLow] at h
  simpa [runWalk, emptySt, childCount] using h

/-- C6: the keys of the graph mapping, in insertion order — which is
first-visitation order, since `walk_node` inserts the entry for a node
the moment it is visited — are exactly `0, 1, ..., n-1`, the graph is
never empty, and its first-inserted key (the root's) is 0. -/
theorem ids_assigned_in_visitation_order (v : Val)
    (skip : String → Val → Bool) :
    (runWalk skip v).graph.map Prod.fst =
        List.range (runWalk skip v).graph.length ∧
      1 ≤ (runWalk skip v).graph.length ∧
      ((runWalk skip v).graph.map Prod.fst).head? = some 0 := by
  obtain ⟨hWF, hlen, _⟩ :=
    walkNode_count skip none v "" emptySt rfl (fun q hq => by cases hq)
  have hlen' : 1 ≤ (runWalk skip v).graph.length := by
    simpa [runWalk, emptySt] using hlen
  refine ⟨hWF, hlen', ?_⟩
  rw [show (runWalk skip v).graph.map Prod.fst =
      List.range (runWalk skip v).graph.length from hWF]
  obtain ⟨n, hn⟩ : ∃ n, (runWalk skip v).graph.length = n + 1 :=
    ⟨_, (Nat.succ_pred_eq_of_pos (by omega)).symm⟩
  rw [hn, List.range_succ_eq_map]
  rfl

mutual

/-- All field names occurring anywhere in a value. -/
def allFieldNames : Val → List String
  | .node _ fields => fieldsNames fields
  | .listV elems => elemsNames elems
  | .noneV => []
  | .leaf _ => []

/-- All field names of a field list: the names themselves plus those of
the nested values. -/
def fieldsNames : List (String × Val) → List String
  | [] => []
  | (name, value) :: rest => name :: (allFieldNames value ++ fieldsNames rest)

/-- All field names occurring in an element list. -/
def elemsNames : List Val → List String
  | [] => []
  | x :: rest => allFieldNames x ++ elemsNames rest

end

/-- Unfolding of `fieldsNames` on a cons cell. -/
theorem fieldsNames_cons_eq (name : String) (value : Val)
    (rest : List (String × Val)) :
    fieldsNames ((name, value) :: rest) =
      name :: (allFieldNames value ++ fieldsNames rest) := rfl

/-- Unfolding of `elemsNames` on a cons cell. -/
theorem elemsNames_cons_eq (x : Val) (rest : List Val) :
    elemsNames (x :: rest) = allFieldNames x ++ elemsNames rest := rfl

/-- The head field's name is among the field names. -/
theorem mem_fieldsNames_head (name : String) (value : Val)
    (rest : List (String × Val)) :
    name ∈ fieldsNames ((name, value) :: rest) := by
  rw [fieldsNames_cons_eq]
  exact List.mem_cons_self _ _

/-- Names of the head field's value are among the field names. -/
theorem mem_fieldsNames_of_value {n : String} (name : String) (value : Val)
    (rest : List (String × Val)) (h : n ∈ allFieldNames value) :
    n ∈ fieldsNames ((name, value) :: rest) := by
  rw [fieldsNames_cons_eq]
  exact List.mem_cons_of_mem _ (List.mem_append_left _ h)

/-- Names of the remaining fields are among the field names. -/
theorem mem_fieldsNames_of_rest {n : String} (name : String) (value : Val)
    (rest : List (String × Val)) (h : n ∈ fieldsNames rest) :
    n ∈ fieldsNames ((name, value) :: rest) := by
  rw [fieldsNames_cons_eq]
  exact List.mem_cons_of_mem _ (List.mem_append_right _ h)

/-- Names of the head element are among the element names. -/
theorem mem_elemsNames_of_head {n : String} (x : Val) (rest : List Val)
    (h : n ∈ allFieldNames x) : n ∈ elemsNames (x :: rest) := by
  rw [elemsNames_cons_eq]
  exact List.mem_append_left _ h

/-- Names of the remaining elements are among the element names. -/
theorem mem_elemsNames_of_rest {n : String} (x : Val) (rest : List Val)
    (h : n ∈ elemsNames rest) : n ∈ elemsNames (x :: rest) := by
  rw [elemsNames_cons_eq]
  exact List.mem_append_right _ h

/-- Edge labels of the prelude below no parent. -/
theorem allocSt_none_edgeLabels (lbl : String) (st : St) :
    (allocSt none lbl st).edgeLabels = st.edgeLabels := rfl

/-- Edge labels of the prelude below parent `p`: the incoming edge label
is recorded under the key `(p, len(graph))`. -/
theorem allocSt_some_edgeLabels (p : Nat) (lbl : String) (st : St) :
    (allocSt (some p) lbl st).edgeLabels =
      dictSet st.edgeLabels (p, st.graph.length) lbl := rfl

/-- Edge labels of `walkNode` on an AST node, in projection form. -/
theorem walkNode_node_edgeLabels (skip : String → Val → Bool)
    (parent : Option Nat) (ty : String) (fields : List (String × Val))
    (lbl : String) (st : St) :
    (walkNode skip parent (.node ty fields) lbl st).edgeLabels =
      (walkFields skip st.graph.length fields
          (allocSt parent lbl st)).2.edgeLabels := by
  cases parent <;> rfl

/-- Edge labels of `walkNode` on a list, in projection form. -/
theorem walkNode_listV_edgeLabels (skip : String → Val → Bool)
    (parent : Option Nat) (elems : List Val) (lbl : String) (st : St) :
    (walkNode skip parent (.listV elems) lbl st).edgeLabels =
      (walkElems skip st.graph.length 0 elems
          (listSt parent lbl st)).edgeLabels := by
  cases parent <;> rfl

/-- Edge labels of the list-element state. -/
theorem listSt_edgeLabels (parent : Option Nat) (lbl : String) (st : St) :
    (listSt parent lbl st).edgeLabels = (allocSt parent lbl st).edgeLabels :=
  rfl

/-- Every value of a dictionary after an assignment is either an old
value or the newly assigned one. -/
theorem mem_values_dictSet {α β : Type} [DecidableEq α]
    {d : List (α × β)} {k : α} {v b : β}
    (h : b ∈ (dictSet d k v).map Prod.snd) : b ∈ d.map Prod.snd ∨ b = v := by
  unfold dictSet at h
  split at h
  · rw [List.map_map] at h
    rcases List.mem_map.mp h with ⟨p, hp, hb⟩
    by_cases hpk : p.1 = k
    · right
      simp only [Function.comp_apply, if_pos hpk] at hb
      exact hb.symm
    · left
      simp only [Function.comp_apply, if_neg hpk] at hb
      exact List.mem_map.mpr ⟨p, hp, hb⟩
  · rw [List.map_append] at h
    rcases List.mem_append.mp h with h1 | h2
    · exact Or.inl h1
    · right
      simpa using h2

mutual

/-- Closure property of the recorded edge-label values: if a predicate
holds for every index label `[i]`, for the incoming label (when there is
a parent), for `.name` for every field name of the visited value, and for
every previously recorded label, then it holds for every label recorded
by the call. -/
theorem walkNode_labels (P : String → Prop)
    (hIdx : ∀ i : Nat, P ("[" ++ Nat.repr i ++ "]"))
    (skip : String → Val → Bool) (parent : Option Nat) (v : Val)
    (lbl : String) (st : St) :
    (∀ q, parent = some q → P lbl) →
    (∀ name, name ∈ allFieldNames v → P ("." ++ name)) →
    (∀ s, s ∈ st.edgeLabels.map Prod.snd → P s) →
    ∀ s, s ∈ (walkNode skip parent v lbl st).edgeLabels.map Prod.snd →
      P s := by
  cases v with
  | node ty fields =>
      intro hLbl hNames hEl
      rw [walkNode_node_edgeLabels]
      refine walkFields_labels P hIdx skip st.graph.length fields
        (allocSt parent lbl st) (fun n hn => hNames n hn) ?_
      intro s hs
      cases parent with
      | none =>
          rw [allocSt_none_edgeLabels] at hs
          exact hEl s hs
      | some q =>
          rw [allocSt_some_edgeLabels] at hs
          rcases mem_values_dictSet hs with h1 | h2
          · exact hEl s h1
          · exact h2 ▸ hLbl q rfl
  | listV elems =>
      intro hLbl hNames hEl
      rw [walkNode_listV_edgeLabels]
      refine walkElems_labels P hIdx skip st.graph.length 0 elems
        (listSt parent lbl st) (fun n hn => hNames n hn) ?_
      intro s hs
      rw [listSt_edgeLabels] at hs
      cases parent with
      | none =>
          rw [allocSt_none_edgeLabels] at hs
          exact hEl s hs
      | some q =>
          rw [allocSt_some_edgeLabels] at hs
          rcases mem_values_dictSet hs with h1 | h2
          · exact hEl s h1
          · exact h2 ▸ hLbl q rfl
  | noneV =>
      intro hLbl hNames hEl
      rw [walkNode_noneV_eq]
      intro s hs
      cases parent with
      | none =>
          rw [allocSt_none_edgeLabels] at hs
          exact hEl s hs
      | some q =>
          rw [allocSt_some_edgeLabels] at hs
          rcases mem_values_dictSet hs with h1 | h2
          · exact hEl s h1
          · exact h2 ▸ hLbl q rfl
  | leaf r =>
      intro hLbl hNames hEl
      rw [walkNode_leaf_eq]
      intro s hs
      cases parent with
      | none =>
          rw [allocSt_none_edgeLabels] at hs
          exact hEl s hs
      | some q =>
          rw [allocSt_some_edgeLabels] at hs
          rcases mem_values_dictSet hs with h1 | h2
          · exact hEl s h1
          · exact h2 ▸ hLbl q rfl
termination_by sizeOf v

/-- Field-list part of `walkNode_labels`. -/
theorem walkFields_labels (P : String → Prop)
    (hIdx : ∀ i : Nat, P ("[" ++ Nat.repr i ++ "]"))
    (skip : String → Val → Bool) (nid : Nat)
    (fields : List (String × Val)) (st : St) :
    (∀ name, name ∈ fieldsNames fields → P ("." ++ name)) →
    (∀ s, s ∈ st.edgeLabels.map Prod.snd → P s) →
    ∀ s, s ∈ (walkFields skip nid fields st).2.edgeLabels.map Prod.snd →
      P s := by
  cases fields with
  | nil =>
      intro hNames hEl
      rw [walkFields_nil_snd]
      exact hEl
  | cons fv rest =>
    obtain ⟨name, value⟩ := fv
    intro hNames hEl
    cases hskip : skip name value with
    | true =>
        rw [walkFields_cons_skip hskip]
        exact walkFields_labels P hIdx skip nid rest st
          (fun n hn => hNames n (mem_fieldsNames_of_rest name value rest hn))
          hEl
    | false =>
        cases value with
        | node ty2 fs2 =>
            rw [walkFields_cons_node hskip]
            exact walkFields_labels P hIdx skip nid rest _
              (fun n hn =>
                hNames n (mem_fieldsNames_of_rest name _ rest hn))
              (walkNode_labels P hIdx skip (some nid) (.node ty2 fs2)
                ("." ++ name) st
                (fun q hq => hNames name (mem_fieldsNames_head name _ rest))
                (fun n hn =>
                  hNames n (mem_fieldsNames_of_value name _ rest hn))
                hEl)
        | listV es2 =>
            rw [walkFields_cons_listV hskip]
            exact walkFields_labels P hIdx skip nid rest _
              (fun n hn =>
                hNames n (mem_fieldsNames_of_rest name _ rest hn))
              (walkNode_labels P hIdx skip (some nid) (.listV es2)
                ("." ++ name) st
                (fun q hq => hNames name (mem_fieldsNames_head name _ rest))
                (fun n hn =>
                  hNames n (mem_fieldsNames_of_value name _ rest hn))
                hEl)
        | noneV =>
            rw [walkFields_cons_noneV hskip]
            exact walkFields_labels P hIdx skip nid rest st
              (fun n hn =>
                hNames n (mem_fieldsNames_of_rest name _ rest hn))
              hEl
        | leaf r =>
            rw [walkFields_cons_leaf hskip]
            exact walkFields_labels P hIdx skip nid rest st
              (fun n hn =>
                hNames n (mem_fieldsNames_of_rest name _ rest hn))
              hEl
termination_by sizeOf fields

/-- Element-list part of `walkNode_labels`. -/
theorem walkElems_labels (P : String → Prop)
    (hIdx : ∀ i : Nat, P ("[" ++ Nat.repr i ++ "]"))
    (skip : String → Val → Bool) (nid : Nat) (i : Nat) (elems : List Val)
    (st : St) :
    (∀ name, name ∈ elemsNames elems → P ("." ++ name)) →
    (∀ s, s ∈ st.edgeLabels.map Prod.snd → P s) →
    ∀ s, s ∈ (walkElems skip nid i elems st).edgeLabels.map Prod.snd →
      P s := by
  cases elems with
  | nil =>
      intro hNames hEl
      rw [walkElems_nil_eq]
      exact hEl
  | cons x rest =>
      intro hNames hEl
      rw [walkElems_cons_eq]
      exact walkElems_labels P hIdx skip nid (i + 1) rest _
        (fun n hn => hNames n (mem_elemsNames_of_rest x rest hn))
        (walkNode_labels P hIdx skip (some nid) x
          ("[" ++ Nat.repr i ++ "]") st (fun q hq => hIdx i)
          (fun n hn => hNames n (mem_elemsNames_of_head x rest hn)) hEl)
termination_by sizeOf elems

end


/-- Decimal digit characters are never a double quote. -/
theorem digitChar_ne_quote (m : Nat) (hm : m < 10) :
    Nat.digitChar m ≠ '"' := by
  interval_cases m <;> decide

/-- `Nat.toDigitsCore` in base 10 produces no double quote beyond its
accumulator. -/
theorem toDigitsCore_ne_quote (fuel : Nat) :
    ∀ (n : Nat) (acc : List Char), (∀ c ∈ acc, c ≠ '"') →
      ∀ c ∈ Nat.toDigitsCore 10 fuel n acc, c ≠ '"' := by
  induction fuel with
  | zero => intro n acc hacc c hc; exact hacc c hc
  | succ fuel ih =>
      intro n acc hacc c hc
      have hd : Nat.digitChar (n % 10) ≠ '"' :=
        digitChar_ne_quote (n % 10) (Nat.mod_lt _ (by norm_num))
      by_cases h0 : n / 10 = 0
      · simp only [Nat.toDigitsCore, h0, if_pos] at hc
        rcases List.mem_cons.mp hc with h1 | h2
        · exact h1 ▸ hd
        · exact hacc c h2
      · simp only [Nat.toDigitsCore, h0, if_false] at hc
        refine ih (n / 10) (Nat.digitChar (n % 10) :: acc) ?_ c hc
        intro c' hc'
        rcases List.mem_cons.mp hc' with h1 | h2
        · exact h1 ▸ hd
        · exact hacc c' h2

/-- The decimal representation of a natural number contains no double
quote. -/
theorem repr_ne_quote (n : Nat) : ∀ c ∈ (Nat.repr n).data, c ≠ '"' := by
  intro c hc
  have hdata : (Nat.repr n).data = Nat.toDigitsCore 10 (n + 1) n [] := rfl
  rw [hdata] at hc
  exact toDigitsCore_ne_quote (n + 1) n []
    (fun c' hc' => absurd hc' (List.not_mem_nil c')) c hc

/-- C10: for any input tree whose field names contain no double quote,
every edge label recorded by the walk is either `.` followed by a field
name of the tree or `[` index `]`, and contains no double quote — so the
unescaped interpolation of edge labels in `graph_to_dot` stays inside the
quotes. -/
theorem edge_label_forms (v : Val) (skip : String → Val → Bool)
    (hq : ∀ name ∈ allFieldNames v, ¬ '"' ∈ name.data) :
    ∀ s ∈ (runWalk skip v).edgeLabels.map Prod.snd,
      ((∃ name, name ∈ allFieldNames v ∧ s = "." ++ name) ∨
          (∃ i : Nat, s = "[" ++ Nat.repr i ++ "]")) ∧
        ¬ '"' ∈ s.data := by
  intro s hs
  have hshape :=
    walkNode_labels
      (fun t => (∃ name, name ∈ allFieldNames v ∧ t = "." ++ name) ∨
        (∃ i : Nat, t = "[" ++ Nat.repr i ++ "]"))
      (fun i => Or.inr ⟨i, rfl⟩) skip none v "" emptySt
      (fun q hq' => by cases hq')
      (fun name hn => Or.inl ⟨name, hn, rfl⟩)
      (fun t ht => absurd ht (List.not_mem_nil t))
      s hs
  refine ⟨hshape, ?_⟩
  rcases hshape with ⟨name, hn, rfl⟩ | ⟨i, rfl⟩
  · intro hmem
    have hdata : ("." ++ name).data = '.' :: name.data := rfl
    rw [hdata] at hmem
    rcases List.mem_cons.mp hmem with h1 | h2
    · exact absurd h1 (by decide)
    · exact hq name hn h2
  · intro hmem
    have hdata : ("[" ++ Nat.repr i ++ "]").data =
        '[' :: ((Nat.repr i).data ++ [']']) := rfl
    rw [hdata] at hmem
    rcases List.mem_cons.mp hmem with h1 | h2
    · exact absurd h1 (by decide)
    · rcases List.mem_append.mp h2 with h3 | h4
      · exact repr_ne_quote i '"' h3 rfl
      · exact absurd (List.mem_singleton.mp h4) (by decide)

/-- Closed instance of the C10 statement: the label `.x` recorded while
walking `branchTree` has the claimed shape and carries no quote. -/
theorem edge_label_forms_witness :
    ((∃ name, name ∈ allFieldNames branchTree ∧ ".x" = "." ++ name) ∨
        (∃ i : Nat, ".x" = "[" ++ Nat.repr i ++ "]")) ∧
      ¬ '"' ∈ ".x".data :=
  edge_label_forms branchTree skipDefault (by decide) ".x" (by decide)
